import Mathlib

/-
Verification of the language-detection and translation logic of the
ai-translator repository: a shallow embedding of
src/services/translation.py (TranslationService) and src/config.py (Config).

Text is modelled as a list of Unicode scalar values (Lean `Char`),
matching Python `str`.  The two statistical detectors (langdetect, langid)
are third-party libraries and appear as function parameters; the service's
own adapters around them are embedded.  The regular-expression
substitutions of `_clean_text_for_detection` are embedded as recursive
functions with the exact leftmost/greedy semantics of `re.sub` on the
concrete patterns used by the source.
-/

namespace AITranslator

/-- The key set of `Config.SUPPORTED_LANGUAGES` (src/config.py lines 14-53). -/
def supportedList : List String :=
  ["ar", "bg", "cs", "da", "de", "el", "en", "es", "et", "fa",
   "fi", "fr", "he", "hi", "hr", "hu", "id", "it", "ja", "ko",
   "lt", "lv", "ms", "nl", "no", "pl", "pt", "ro", "ru", "sk",
   "sl", "sq", "sv", "th", "tr", "uk", "vi", "zh"]

/-- Embeds `Config.is_language_supported` (src/config.py lines 244-246):
membership in the keys of SUPPORTED_LANGUAGES. -/
def is_language_supported (s : String) : Bool := supportedList.contains s

/-- Embeds `Config.TARGET_LANGUAGE` (src/config.py line 8). -/
def TARGET_LANGUAGE : String := "en"

/-- Python truthiness of an `Optional[str]`: `None` and `""` are falsy. -/
def tr : Option String → Bool
  | none => false
  | some s => !(s == "")

/-- The test `Config.is_language_supported` applied to an `Optional[str]` that the
source has already tested for truthiness. -/
def optSup : Option String → Bool
  | none => false
  | some s => is_language_supported s

/-- Whitespace as recognised by Python's `str.strip` and the regex class
`\s` on Unicode strings. -/
def pyIsSpace (c : Char) : Bool :=
  decide ((0x09 ≤ c.toNat ∧ c.toNat ≤ 0x0D) ∨ (0x1C ≤ c.toNat ∧ c.toNat ≤ 0x1F) ∨
    c.toNat = 0x20 ∨ c.toNat = 0x85 ∨ c.toNat = 0xA0 ∨ c.toNat = 0x1680 ∨
    (0x2000 ≤ c.toNat ∧ c.toNat ≤ 0x200A) ∨ c.toNat = 0x2028 ∨ c.toNat = 0x2029 ∨
    c.toNat = 0x202F ∨ c.toNat = 0x205F ∨ c.toNat = 0x3000)

/-- The character class of the emoji-removal pattern in
`_clean_text_for_detection` (src/services/translation.py lines 92-106).
Note the last range U+24C2..U+1F251 of the source subsumes, among others,
all CJK ideographs, kana and hangul. -/
def isEmojiChar (c : Char) : Bool :=
  decide ((0x1F600 ≤ c.toNat ∧ c.toNat ≤ 0x1F64F) ∨
    (0x1F300 ≤ c.toNat ∧ c.toNat ≤ 0x1F5FF) ∨
    (0x1F680 ≤ c.toNat ∧ c.toNat ≤ 0x1F6FF) ∨
    (0x1F700 ≤ c.toNat ∧ c.toNat ≤ 0x1F77F) ∨
    (0x1F780 ≤ c.toNat ∧ c.toNat ≤ 0x1F7FF) ∨
    (0x1F800 ≤ c.toNat ∧ c.toNat ≤ 0x1F8FF) ∨
    (0x1F900 ≤ c.toNat ∧ c.toNat ≤ 0x1F9FF) ∨
    (0x1FA00 ≤ c.toNat ∧ c.toNat ≤ 0x1FA6F) ∨
    (0x1FA70 ≤ c.toNat ∧ c.toNat ≤ 0x1FAFF) ∨
    (0x2702 ≤ c.toNat ∧ c.toNat ≤ 0x27B0) ∨
    (0x24C2 ≤ c.toNat ∧ c.toNat ≤ 0x1F251))

/-- The check `re.search(r'[一-鿿]', text)` (translation.py line 184). -/
def hasCJK (l : List Char) : Bool :=
  l.any fun c => decide (0x4E00 ≤ c.toNat ∧ c.toNat ≤ 0x9FFF)

/-- The check `re.search(r'[぀-ゟ゠-ヿ]', text)` (line 187). -/
def hasKana (l : List Char) : Bool :=
  l.any fun c => decide ((0x3040 ≤ c.toNat ∧ c.toNat ≤ 0x309F) ∨
    (0x30A0 ≤ c.toNat ∧ c.toNat ≤ 0x30FF))

/-- The check `re.search(r'[가-힯ᄀ-ᇿ]', text)` (line 190). -/
def hasHangul (l : List Char) : Bool :=
  l.any fun c => decide ((0xAC00 ≤ c.toNat ∧ c.toNat ≤ 0xD7AF) ∨
    (0x1100 ≤ c.toNat ∧ c.toNat ≤ 0x11FF))

/-- The check `re.search(r'[؀-ۿ]', text)` (line 193). -/
def hasArabic (l : List Char) : Bool :=
  l.any fun c => decide (0x600 ≤ c.toNat ∧ c.toNat ≤ 0x6FF)

/-- The check `re.search(r'[а-яА-Я]', text)` (line 196): only the basic Cyrillic
letter ranges U+0430..U+044F and U+0410..U+042F. -/
def hasCyrBasic (l : List Char) : Bool :=
  l.any fun c => decide ((0x430 ≤ c.toNat ∧ c.toNat ≤ 0x44F) ∨
    (0x410 ≤ c.toNat ∧ c.toNat ≤ 0x42F))

/-- The check `re.search(r'[Ͱ-Ͽ]', text)` (line 208). -/
def hasGreek (l : List Char) : Bool :=
  l.any fun c => decide (0x370 ≤ c.toNat ∧ c.toNat ≤ 0x3FF)

/-- Modelled from the spec's word "Cyrillic" in §4.3: a character of the
Unicode Cyrillic block U+0400..U+04FF.  Used only to state the spec's
claim, to be compared with the source's `hasCyrBasic`. -/
def hasCyrillicBlock (l : List Char) : Bool :=
  l.any fun c => decide (0x400 ≤ c.toNat ∧ c.toNat ≤ 0x4FF)

/-- The characters of the literal `https://`. -/
def httpsPat : List Char := "https://".toList

/-- The characters of the literal `http://`. -/
def httpPat : List Char := "http://".toList

/-- The characters of the literal `www.`. -/
def wwwPat : List Char := "www.".toList

/-- Length of the leading run of non-whitespace characters: what the
greedy `\S+` consumes (0 when `\S+` fails to match). -/
def nonspaceRunLen (l : List Char) : Nat :=
  (l.takeWhile fun c => !pyIsSpace c).length

/-- Length of the match of `https?://\S+|www\.\S+` anchored at the head of
`l`, or 0 if the pattern does not match there.  Alternatives are tried in
the order of the source pattern; `\S+` is greedy and must consume at least
one character. -/
def urlMatchLen (l : List Char) : Nat :=
  if l.take 8 = httpsPat then
    if nonspaceRunLen (l.drop 8) = 0 then 0 else 8 + nonspaceRunLen (l.drop 8)
  else if l.take 7 = httpPat then
    if nonspaceRunLen (l.drop 7) = 0 then 0 else 7 + nonspaceRunLen (l.drop 7)
  else if l.take 4 = wwwPat then
    if nonspaceRunLen (l.drop 4) = 0 then 0 else 4 + nonspaceRunLen (l.drop 4)
  else 0

/-- Fuelled worker for `removeURLs`; the fuel is an upper bound on the
number of characters still to be scanned. -/
def removeURLsGo : Nat → List Char → List Char
  | 0, l => l
  | _ + 1, [] => []
  | fuel + 1, c :: cs =>
    if urlMatchLen (c :: cs) = 0 then c :: removeURLsGo fuel cs
    else removeURLsGo fuel ((c :: cs).drop (urlMatchLen (c :: cs)))

/-- The substitution `re.sub(r'https?://\S+|www\.\S+', '', text)`
(src/services/translation.py line 89): delete every leftmost,
non-overlapping match, scanning left to right. -/
def removeURLs (l : List Char) : List Char := removeURLsGo l.length l

/-- The substitution `emoji_pattern.sub(r'', text)` (line 107): removing every maximal run
of class characters is removing every class character. -/
def removeEmoji (l : List Char) : List Char := l.filter fun c => !isEmojiChar c

/-- Worker for `collapseWS`.  The flag records whether the previous input
character was whitespace (whose run has already produced its single
space). -/
def collapseGo : Bool → List Char → List Char
  | _, [] => []
  | prev, c :: cs =>
    if pyIsSpace c then
      if prev then collapseGo true cs else ' ' :: collapseGo true cs
    else c :: collapseGo false cs

/-- The substitution `re.sub(r'\s+', ' ', text)` (line 110): each maximal whitespace run
becomes a single space. -/
def collapseWS (l : List Char) : List Char := collapseGo false l

/-- Python `str.strip()`: drop whitespace from both ends. -/
def pyStrip (l : List Char) : List Char :=
  ((l.dropWhile pyIsSpace).reverse.dropWhile pyIsSpace).reverse

/-- Embeds `TranslationService._clean_text_for_detection`
(src/services/translation.py lines 79-112): remove URLs, remove emoji,
collapse whitespace runs to single spaces and strip the ends. -/
def clean_text_for_detection (l : List Char) : List Char :=
  pyStrip (collapseWS (removeEmoji (removeURLs l)))

/-- Embeds `TranslationService._combine_detection_results`
(src/services/translation.py lines 147-223).  `text` is the cleaned text;
`a` and `b` are the langdetect and langid results; falsy-string handling
follows Python truthiness via `tr`. -/
def combine_detection_results (text : List Char) (a b hint : Option String) :
    Option String :=
  if tr hint = true ∧ (hint = a ∨ hint = b) then hint
  else if tr a = true ∧ tr b = true ∧ a = b then a
  else if tr a = true ∧ tr b = false then a
  else if tr a = false ∧ tr b = true then b
  else if tr a = true ∧ tr b = true then
    if hasCJK text = true then some "zh"
    else if hasKana text = true then some "ja"
    else if hasHangul text = true then some "ko"
    else if hasArabic text = true then some "ar"
    else if hasCyrBasic text = true then
      if a = some "ru" ∨ b = some "ru" then some "ru"
      else if a = some "uk" ∨ b = some "uk" then some "uk"
      else if a = some "bg" ∨ b = some "bg" then some "bg"
      else if a = some "sr" ∨ b = some "sr" then some "sr"
      else some "ru"
    else if hasGreek text = true then some "el"
    else if tr hint = true then hint
    else a
  else if tr hint = true then hint
  else none

/-- Embeds `TranslationService.detect_language`
(src/services/translation.py lines 17-77), parameterised by the two
detector adapters `_detect_with_langdetect` and `_detect_with_langid`
(modelled as arbitrary total functions, since the adapters catch all
library exceptions and return `Optional[str]`). -/
def detect_language (ld li : List Char → Option String)
    (text : List Char) (hint : Option String) : Option String :=
  if tr hint = true ∧ optSup hint = true then hint
  else if text = [] ∨ (pyStrip text).length < 3 then none
  else
    let cleaned := clean_text_for_detection text
    if cleaned = [] ∨ (pyStrip cleaned).length < 3 then none
    else
      let fin := combine_detection_results cleaned (ld cleaned) (li cleaned) hint
      if tr fin = true ∧ optSup fin = true then fin
      else if tr hint = true then hint
      else none

/-- Embeds `TranslationService._detect_with_langdetect`
(src/services/translation.py lines 114-128): call the raw library and
convert any exception to `None`. -/
def detect_with_langdetect {Er : Type} (raw : List Char → Except Er String)
    (t : List Char) : Option String :=
  match raw t with
  | Except.ok c => some c
  | Except.error _ => none

/-- Embeds `TranslationService._detect_with_langid`
(src/services/translation.py lines 130-145): call the raw library, keep
the code only when the confidence exceeds 0.5, and convert any exception
to `None`. -/
def detect_with_langid {Er : Type} (raw : List Char → Except Er (String × ℚ))
    (t : List Char) : Option String :=
  match raw t with
  | Except.ok (lang, confidence) => if (1 : ℚ) / 2 < confidence then some lang else none
  | Except.error _ => none

/-- Embeds `TranslationService.detect_language` with the exception flow made
explicit: the raw detectors may fail (`Except.error`), the adapters catch,
and the outer `try`/`except` of lines 37-77 wraps the body.  The final
`match` is the `except Exception` handler of lines 69-77. -/
def detect_languageE {Er : Type} (raw1 : List Char → Except Er String)
    (raw2 : List Char → Except Er (String × ℚ))
    (text : List Char) (hint : Option String) : Except Er (Option String) :=
  if tr hint = true ∧ optSup hint = true then Except.ok hint
  else if text = [] ∨ (pyStrip text).length < 3 then Except.ok none
  else
    let body : Except Er (Option String) :=
      let cleaned := clean_text_for_detection text
      if cleaned = [] ∨ (pyStrip cleaned).length < 3 then Except.ok none
      else
        let a := detect_with_langdetect raw1 cleaned
        let b := detect_with_langid raw2 cleaned
        let fin := combine_detection_results cleaned a b hint
        if tr fin = true ∧ optSup fin = true then Except.ok fin
        else if tr hint = true then Except.ok hint
        else Except.ok none
    match body with
    | Except.ok r => Except.ok r
    | Except.error _ => Except.ok (if tr hint = true then hint else none)

/-- The effective target language of `TranslationService.translate`
(src/services/translation.py line 243): the given target when truthy and
supported, otherwise `Config.TARGET_LANGUAGE`. -/
def effectiveTarget (target_lang : Option String) : String :=
  match target_lang with
  | some t => if (!(t == "")) = true ∧ is_language_supported t = true then t
              else TARGET_LANGUAGE
  | none => TARGET_LANGUAGE

/-- Embeds `TranslationService.translate` (src/services/translation.py
lines 225-252), parameterised by the external backend
(`GoogleTranslator(...).translate`); a backend result of `none` models a
raised exception, caught by the source's `try`/`except` which returns
`None`. -/
def translate (backend : String → String → List Char → Option (List Char))
    (text : List Char) (source_lang target_lang : Option String) :
    Option (List Char) :=
  let source := match source_lang with
    | some s => if (!(s == "")) = true then s else "auto"
    | none => "auto"
  let target := effectiveTarget target_lang
  if tr source_lang = true ∧ source_lang = some target then some text
  else backend source target text

/-- Membership in the Cyrillic tie-break list `['uk', 'bg', 'sr']` of
src/services/translation.py line 201. -/
def cyrTie (x : String) : Prop := x = "uk" ∨ x = "bg" ∨ x = "sr"

/-- A list that is empty or begins with a whitespace character: the shape
of the remainder after a URL match is removed. -/
def headSpaceOrNil (y : List Char) : Prop :=
  y = [] ∨ ∃ s ys, y = s :: ys ∧ pyIsSpace s = true

/-- No suffix of `l` begins with a URL match. -/
def noURLAt (l : List Char) : Prop := ∀ i, urlMatchLen (l.drop i) = 0

/-- Its first element, if any, is not whitespace. -/
def headNS (l : List Char) : Prop :=
  ∀ s ys, l = s :: ys → pyIsSpace s = false

/-- Its last element, if any, is not whitespace. -/
def lastNS (l : List Char) : Prop := headNS l.reverse

/-- No two adjacent whitespace characters. -/
def noAdjWs : List Char → Prop
  | [] => True
  | [_] => True
  | a :: b :: rest => ¬(pyIsSpace a = true ∧ pyIsSpace b = true) ∧ noAdjWs (b :: rest)

/-- Every whitespace character in the list is a plain space. -/
def wsOnlySingle (l : List Char) : Prop :=
  ∀ c ∈ l, pyIsSpace c = true → c = ' '

/- ### Basic facts about the configuration -/

lemma supported_ne_empty {s : String} (h : is_language_supported s = true) :
    (s == "") = false := by
  have hmem : s ∈ supportedList := by simpa [is_language_supported] using h
  have hall : ∀ x ∈ supportedList, (x == "") = false := by decide
  exact hall s hmem

lemma pyStrip_nil : pyStrip [] = [] := rfl

/-- When the hint does not short-circuit and both length gates pass,
`detect_language` reduces to the final-validation step around
`combine_detection_results`. -/
lemma detect_language_eq_of_lengths (ld li : List Char → Option String)
    (text : List Char) (hint : Option String)
    (hhint : ¬(tr hint = true ∧ optSup hint = true))
    (hlen : 3 ≤ (pyStrip text).length)
    (hclen : 3 ≤ (pyStrip (clean_text_for_detection text)).length) :
    detect_language ld li text hint =
      (if tr (combine_detection_results (clean_text_for_detection text)
            (ld (clean_text_for_detection text))
            (li (clean_text_for_detection text)) hint) = true ∧
          optSup (combine_detection_results (clean_text_for_detection text)
            (ld (clean_text_for_detection text))
            (li (clean_text_for_detection text)) hint) = true
       then combine_detection_results (clean_text_for_detection text)
            (ld (clean_text_for_detection text))
            (li (clean_text_for_detection text)) hint
       else if tr hint = true then hint else none) := by
  have ht : ¬(text = [] ∨ (pyStrip text).length < 3) := by
    rintro (rfl | hlt)
    · rw [pyStrip_nil] at hlen; simp at hlen
    · omega
  have hc : ¬(clean_text_for_detection text = [] ∨
      (pyStrip (clean_text_for_detection text)).length < 3) := by
    rintro (hq | hlt)
    · rw [hq, pyStrip_nil] at hclen; simp at hclen
    · omega
  simp only [detect_language]
  rw [if_neg hhint, if_neg ht, if_neg hc]

/-- C4: a hint that is present and a member of SupportedLanguageSet is
returned immediately, for every text and independently of the detectors
(src/services/translation.py lines 29-31). -/
theorem detect_language_hint_short_circuit (ld li : List Char → Option String)
    (text : List Char) (h : String) (hsup : is_language_supported h = true) :
    detect_language ld li text (some h) = some h := by
  have hne := supported_ne_empty hsup
  simp [detect_language, tr, optSup, hne, hsup]

theorem detect_language_hint_short_circuit_witness :
    is_language_supported "ru" = true ∧
    detect_language (fun _ => none) (fun _ => none)
      "whatever text at all".toList (some "ru") = some "ru" :=
  ⟨by decide,
   detect_language_hint_short_circuit (fun _ => none) (fun _ => none)
     "whatever text at all".toList "ru" (by decide)⟩

/-- C5: when both detectors agree on a supported code `X` on the cleaned
text and the length gates pass, `detect_language(text, None)` returns `X`
(src/services/translation.py lines 171-173 and 56-58). -/
theorem detect_language_agreement (ld li : List Char → Option String)
    (text : List Char) (X : String)
    (hlen : 3 ≤ (pyStrip text).length)
    (hclen : 3 ≤ (pyStrip (clean_text_for_detection text)).length)
    (ha : ld (clean_text_for_detection text) = some X)
    (hb : li (clean_text_for_detection text) = some X)
    (hsup : is_language_supported X = true) :
    detect_language ld li text none = some X := by
  have hX := supported_ne_empty hsup
  rw [detect_language_eq_of_lengths _ _ _ _ (by simp [tr]) hlen hclen, ha, hb]
  have hcomb : combine_detection_results (clean_text_for_detection text)
      (some X) (some X) none = some X := by
    simp [combine_detection_results, tr, hX]
  rw [hcomb]
  simp [tr, optSup, hX, hsup]

theorem detect_language_agreement_witness :
    detect_language (fun _ => some "fr") (fun _ => some "fr")
      "bonjour tout le monde".toList none = some "fr" :=
  detect_language_agreement (fun _ => some "fr") (fun _ => some "fr")
    "bonjour tout le monde".toList "fr" (by decide) (by decide) rfl rfl (by decide)

/-- C1 (amended): every value returned by `detect_language` is absent, a
member of SupportedLanguageSet, or the caller's hint itself (the
unsupported-hint fallback of src/services/translation.py lines 63-65 and
72-75 can return a hint outside the supported set). -/
theorem detect_language_returns_supported_or_hint
    (ld li : List Char → Option String) (text : List Char)
    (hint : Option String) (c : String)
    (h : detect_language ld li text hint = some c) :
    is_language_supported c = true ∨ hint = some c := by
  simp only [detect_language] at h
  split_ifs at h with h1 h2 h3 h4 h5
  · exact Or.inr h
  · rw [h] at h4
    exact Or.inl (by simpa [optSup] using h4.2)
  · exact Or.inr h

theorem detect_language_returns_supported_or_hint_witness :
    is_language_supported "ru" = true ∨ (some "ru" : Option String) = some "ru" :=
  detect_language_returns_supported_or_hint (fun _ => none) (fun _ => none)
    "abc".toList (some "ru") "ru" (by decide)

/-- C1 (counterexample): with an unsupported hint `"xx"` and both
detectors absent, `detect_language` returns the unsupported code `"xx"`,
contradicting the claim that the result is always absent or supported. -/
theorem detect_language_unsupported_hint_escapes :
    detect_language (fun _ => none) (fun _ => none)
      "hello world".toList (some "xx") = some "xx" ∧
    is_language_supported "xx" = false := by decide

/-- C2 (amended): with no hint, both detectors producing distinct
non-empty codes on the cleaned text, no script rule firing on the cleaned
text, and langdetect's code supported, the langdetect result is returned
(src/services/translation.py lines 215-216). -/
theorem detect_language_disagreement_prefers_langdetect
    (ld li : List Char → Option String) (text : List Char) (a b : String)
    (hlen : 3 ≤ (pyStrip text).length)
    (hclen : 3 ≤ (pyStrip (clean_text_for_detection text)).length)
    (ha : ld (clean_text_for_detection text) = some a)
    (hb : li (clean_text_for_detection text) = some b)
    (hab : a ≠ b)
    (h1 : hasCJK (clean_text_for_detection text) = false)
    (h2 : hasKana (clean_text_for_detection text) = false)
    (h3 : hasHangul (clean_text_for_detection text) = false)
    (h4 : hasArabic (clean_text_for_detection text) = false)
    (h5 : hasCyrBasic (clean_text_for_detection text) = false)
    (h6 : hasGreek (clean_text_for_detection text) = false)
    (hsup : is_language_supported a = true) :
    detect_language ld li text none = some a := by
  have hA := supported_ne_empty hsup
  rw [detect_language_eq_of_lengths _ _ _ _ (by simp [tr]) hlen hclen, ha, hb]
  have hcomb : combine_detection_results (clean_text_for_detection text)
      (some a) (some b) none = some a := by
    by_cases hbe : (b == "") = true
    · simp [combine_detection_results, tr, hA, hbe]
    · have hbe' : (b == "") = false := by simpa using hbe
      simp [combine_detection_results, tr, hA, hbe', hab, h1, h2, h3, h4, h5, h6]
  rw [hcomb]
  simp [tr, optSup, hA, hsup]

theorem detect_language_disagreement_prefers_langdetect_witness :
    detect_language (fun _ => some "de") (fun _ => some "fr")
      "guten tag mes amis".toList none = some "de" :=
  detect_language_disagreement_prefers_langdetect
    (fun _ => some "de") (fun _ => some "fr") "guten tag mes amis".toList
    "de" "fr" (by decide) (by decide) rfl rfl (by decide)
    (by decide) (by decide) (by decide) (by decide) (by decide) (by decide)
    (by decide)

/-- C2 (counterexample): the claim as stated fails twice.  With a
non-short-circuiting (unsupported) hint `"xx"`, a disagreement with no
script rule firing returns the hint, not langdetect's result; and with no
hint, an unsupported langdetect result (here `"ca"`) yields absent, not
langdetect's result. -/
theorem detect_language_disagreement_claim_false :
    (detect_language (fun _ => some "de") (fun _ => some "fr")
        "hello there friend".toList (some "xx") = some "xx" ∧
      is_language_supported "xx" = false ∧ some "xx" ≠ some "de") ∧
    (detect_language (fun _ => some "ca") (fun _ => some "fr")
        "hello there friend".toList none = none ∧
      hasCJK (clean_text_for_detection "hello there friend".toList) = false ∧
      hasKana (clean_text_for_detection "hello there friend".toList) = false ∧
      hasHangul (clean_text_for_detection "hello there friend".toList) = false ∧
      hasArabic (clean_text_for_detection "hello there friend".toList) = false ∧
      hasCyrBasic (clean_text_for_detection "hello there friend".toList) = false ∧
      hasGreek (clean_text_for_detection "hello there friend".toList) = false) := by
  decide

/-- C6 (amended): with no hint, when exactly one detector produces a code
on the cleaned text and that code is supported, it is returned; no script
hypothesis is needed, the one-sided branches of
src/services/translation.py lines 176-179 fire before the script
heuristics. -/
theorem detect_language_single_detector_priority
    (ld li : List Char → Option String) (text : List Char) (c : String)
    (hlen : 3 ≤ (pyStrip text).length)
    (hclen : 3 ≤ (pyStrip (clean_text_for_detection text)).length)
    (hone : (ld (clean_text_for_detection text) = some c ∧
             li (clean_text_for_detection text) = none) ∨
            (ld (clean_text_for_detection text) = none ∧
             li (clean_text_for_detection text) = some c))
    (hsup : is_language_supported c = true) :
    detect_language ld li text none = some c := by
  have hc := supported_ne_empty hsup
  rw [detect_language_eq_of_lengths _ _ _ _ (by simp [tr]) hlen hclen]
  rcases hone with ⟨ha, hb⟩ | ⟨ha, hb⟩ <;> rw [ha, hb]
  · have hcomb : combine_detection_results (clean_text_for_detection text)
        (some c) none none = some c := by
      simp [combine_detection_results, tr, hc]
    rw [hcomb]; simp [tr, optSup, hc, hsup]
  · have hcomb : combine_detection_results (clean_text_for_detection text)
        none (some c) none = some c := by
      simp [combine_detection_results, tr, hc]
    rw [hcomb]; simp [tr, optSup, hc, hsup]

theorem detect_language_single_detector_priority_witness :
    hasCyrBasic (clean_text_for_detection "привет мир".toList) = true ∧
    detect_language (fun _ => some "de") (fun _ => none)
      "привет мир".toList none = some "de" :=
  ⟨by decide,
   detect_language_single_detector_priority (fun _ => some "de") (fun _ => none)
     "привет мир".toList "de" (by decide) (by decide) (Or.inl ⟨rfl, rfl⟩)
     (by decide)⟩

/-- C6 (counterexample): when the single produced code is not in
SupportedLanguageSet (here `"ca"`), `detect_language` returns absent, not
that code, because of the final validation of lines 56-67. -/
theorem detect_language_single_detector_claim_false :
    detect_language (fun _ => some "ca") (fun _ => none)
      "hola amigos".toList none = none ∧
    is_language_supported "ca" = false := by decide

/-- C8 (amended): with no hint, `detect_language` returns absent whenever
the raw text strips to fewer than 3 characters or the cleaned text strips
to fewer than 3 characters, counting internal spaces
(src/services/translation.py lines 33-42). -/
theorem detect_language_too_short_none (ld li : List Char → Option String)
    (text : List Char)
    (h : (pyStrip text).length < 3 ∨
         (pyStrip (clean_text_for_detection text)).length < 3) :
    detect_language ld li text none = none := by
  simp only [detect_language]
  rw [if_neg (by simp [tr])]
  by_cases h1 : text = [] ∨ (pyStrip text).length < 3
  · rw [if_pos h1]
  · rw [if_neg h1]
    have h2 : (pyStrip (clean_text_for_detection text)).length < 3 := by
      rcases h with h | h
      · exact absurd (Or.inr h) h1
      · exact h
    rw [if_pos (Or.inr h2)]

theorem detect_language_too_short_none_witness :
    clean_text_for_detection "https://example.com".toList = [] ∧
    detect_language (fun _ => some "en") (fun _ => some "en")
      "https://example.com".toList none = none ∧
    detect_language (fun _ => some "en") (fun _ => some "en")
      "".toList none = none :=
  ⟨by decide,
   detect_language_too_short_none (fun _ => some "en") (fun _ => some "en")
     "https://example.com".toList (Or.inr (by decide)),
   detect_language_too_short_none (fun _ => some "en") (fun _ => some "en")
     "".toList (Or.inl (by decide))⟩

/-- C8 (counterexample): `"a b"` has only 2 non-space characters in its
normalized form, yet it passes the source's length gates (which measure
`len(strip(...))`, counting internal spaces) and is detected. -/
theorem detect_language_short_claim_false :
    detect_language (fun _ => some "en") (fun _ => some "en")
      "a b".toList none = some "en" ∧
    ((clean_text_for_detection "a b".toList).filter
      fun c => !pyIsSpace c).length = 2 := by decide

/-- C3: the exception-explicit embedding always returns normally
(`Except.ok`), and agrees with the pure model: raw detector failures are
caught at the adapter boundary (`detect_with_langdetect`,
`detect_with_langid`) and become absent; nothing propagates to the caller
(src/services/translation.py lines 69-77 and 114-145). -/
theorem detect_language_never_raises {Er : Type}
    (raw1 : List Char → Except Er String)
    (raw2 : List Char → Except Er (String × ℚ))
    (text : List Char) (hint : Option String) :
    detect_languageE raw1 raw2 text hint =
      Except.ok (detect_language (detect_with_langdetect raw1)
        (detect_with_langid raw2) text hint) := by
  simp only [detect_languageE, detect_language]
  split_ifs <;> rfl

/-- C10: when `translate` is called with a source language equal to the
effective target (the given target if supported, else
`Config.TARGET_LANGUAGE`), it returns the text unchanged, for every
backend (src/services/translation.py lines 241-249). -/
theorem translate_same_source_target_identity
    (backend : String → String → List Char → Option (List Char))
    (text : List Char) (target_lang : Option String) :
    translate backend text (some (effectiveTarget target_lang)) target_lang =
      some text := by
  have h : (effectiveTarget target_lang == "") = false := by
    cases target_lang with
    | none => decide
    | some t =>
      simp only [effectiveTarget]
      split_ifs with hc
      · exact supported_ne_empty hc.2
      · decide
  simp [translate, tr, h]

/-- The Cyrillic branch of `_combine_detection_results`
(src/services/translation.py lines 196-205), on a disagreement with no
earlier script rule firing. -/
lemma combine_cyrillic (cl : List Char) (a b : String)
    (hA : (a == "") = false) (hB : (b == "") = false) (hab : a ≠ b)
    (h1 : hasCJK cl = false) (h2 : hasKana cl = false)
    (h3 : hasHangul cl = false) (h4 : hasArabic cl = false)
    (h5 : hasCyrBasic cl = true) :
    combine_detection_results cl (some a) (some b) none =
      (if a = "ru" ∨ b = "ru" then some "ru"
       else if a = "uk" ∨ b = "uk" then some "uk"
       else if a = "bg" ∨ b = "bg" then some "bg"
       else if a = "sr" ∨ b = "sr" then some "sr"
       else some "ru") := by
  simp [combine_detection_results, tr, hA, hB, hab, h1, h2, h3, h4, h5]

/-- C7 (amended): Cyrillic tie-break at the `detect_language` level, for
basic-range Cyrillic text (the source tests only `[а-яА-Я]`): `ru` wins if
either raw result is `ru`; else a raw result in {`uk`,`bg`} is returned;
else a raw result of `sr` is picked by the tie-break but rejected by the
final supported-set validation (`sr` is not a key of SUPPORTED_LANGUAGES),
giving absent; otherwise `ru` is returned by default. -/
theorem detect_language_cyrillic_tiebreak
    (ld li : List Char → Option String) (text : List Char) (a b : String)
    (hlen : 3 ≤ (pyStrip text).length)
    (hclen : 3 ≤ (pyStrip (clean_text_for_detection text)).length)
    (ha : ld (clean_text_for_detection text) = some a)
    (hb : li (clean_text_for_detection text) = some b)
    (hA : a ≠ "") (hB : b ≠ "") (hab : a ≠ b)
    (h1 : hasCJK (clean_text_for_detection text) = false)
    (h2 : hasKana (clean_text_for_detection text) = false)
    (h3 : hasHangul (clean_text_for_detection text) = false)
    (h4 : hasArabic (clean_text_for_detection text) = false)
    (h5 : hasCyrBasic (clean_text_for_detection text) = true) :
    ((a = "ru" ∨ b = "ru") → detect_language ld li text none = some "ru") ∧
    (a ≠ "ru" → b ≠ "ru" → (a = "uk" ∨ a = "bg" ∨ b = "uk" ∨ b = "bg") →
      ((detect_language ld li text none = some a ∧ (a = "uk" ∨ a = "bg")) ∨
       (detect_language ld li text none = some b ∧ (b = "uk" ∨ b = "bg")))) ∧
    (a ≠ "ru" → b ≠ "ru" → a ≠ "uk" → a ≠ "bg" → b ≠ "uk" → b ≠ "bg" →
      (a = "sr" ∨ b = "sr") → detect_language ld li text none = none) ∧
    (a ≠ "ru" → b ≠ "ru" → ¬cyrTie a → ¬cyrTie b →
      detect_language ld li text none = some "ru") := by
  have hA' : (a == "") = false := beq_eq_false_iff_ne.mpr hA
  have hB' : (b == "") = false := beq_eq_false_iff_ne.mpr hB
  have hD := detect_language_eq_of_lengths ld li text none (by simp [tr]) hlen hclen
  rw [ha, hb, combine_cyrillic _ _ _ hA' hB' hab h1 h2 h3 h4 h5] at hD
  refine ⟨?_, ?_, ?_, ?_⟩
  · rintro (rfl | rfl)
    · rw [hD]; simp +decide [tr, optSup]
    · rw [hD]; simp +decide [tr, optSup]
  · intro hna hnb htie
    rcases htie with rfl | rfl | rfl | rfl
    · refine Or.inl ⟨?_, Or.inl rfl⟩
      rw [hD]; simp +decide [tr, optSup, hnb]
    · by_cases hbu : b = "uk"
      · subst hbu
        refine Or.inr ⟨?_, Or.inl rfl⟩
        rw [hD]; simp +decide [tr, optSup]
      · refine Or.inl ⟨?_, Or.inr rfl⟩
        rw [hD]; simp +decide [tr, optSup, hnb, hbu]
    · refine Or.inr ⟨?_, Or.inl rfl⟩
      rw [hD]; simp +decide [tr, optSup, hna]
    · by_cases hau : a = "uk"
      · subst hau
        refine Or.inl ⟨?_, Or.inl rfl⟩
        rw [hD]; simp +decide [tr, optSup]
      · refine Or.inr ⟨?_, Or.inr rfl⟩
        rw [hD]; simp +decide [tr, optSup, hna, hau]
  · intro hna hnb hau hag hbu hbg hsr
    rcases hsr with rfl | rfl
    · rw [hD]; simp +decide [tr, optSup, hnb, hbu, hbg]
    · rw [hD]; simp +decide [tr, optSup, hna, hau, hag]
  · intro hna hnb hta htb
    have n1 : a ≠ "uk" := fun h => hta (Or.inl h)
    have n2 : a ≠ "bg" := fun h => hta (Or.inr (Or.inl h))
    have n3 : a ≠ "sr" := fun h => hta (Or.inr (Or.inr h))
    have n4 : b ≠ "uk" := fun h => htb (Or.inl h)
    have n5 : b ≠ "bg" := fun h => htb (Or.inr (Or.inl h))
    have n6 : b ≠ "sr" := fun h => htb (Or.inr (Or.inr h))
    rw [hD]; simp +decide [tr, optSup, hna, hnb, n1, n2, n3, n4, n5, n6]

theorem detect_language_cyrillic_tiebreak_witness :
    hasCyrBasic (clean_text_for_detection "привет".toList) = true ∧
    detect_language (fun _ => some "ru") (fun _ => some "bg")
      "привет".toList none = some "ru" :=
  ⟨by decide,
   (detect_language_cyrillic_tiebreak (fun _ => some "ru") (fun _ => some "bg")
     "привет".toList "ru" "bg" (by decide) (by decide) rfl rfl (by decide)
     (by decide) (by decide) (by decide) (by decide) (by decide) (by decide)
     (by decide)).1 (Or.inl rfl)⟩

/-- C7 (counterexample): the claim as stated fails twice.  Text of the
Cyrillic letter `ё` (U+0451, inside the Unicode Cyrillic block but outside
the source's `[а-яА-Я]` check) does not trigger the tie-break, so the
result is langdetect's code, not `ru`; and a raw result of `sr` yields
absent rather than `sr`, since `sr` is not in SUPPORTED_LANGUAGES. -/
theorem detect_language_cyrillic_claim_false :
    (hasCyrillicBlock (clean_text_for_detection "ёёё".toList) = true ∧
      hasCyrBasic (clean_text_for_detection "ёёё".toList) = false ∧
      hasCJK (clean_text_for_detection "ёёё".toList) = false ∧
      hasKana (clean_text_for_detection "ёёё".toList) = false ∧
      hasHangul (clean_text_for_detection "ёёё".toList) = false ∧
      hasArabic (clean_text_for_detection "ёёё".toList) = false ∧
      detect_language (fun _ => some "sl") (fun _ => some "hr")
        "ёёё".toList none = some "sl" ∧ ("sl" : String) ≠ "ru") ∧
    (hasCyrBasic (clean_text_for_detection "привет".toList) = true ∧
      detect_language (fun _ => some "sr") (fun _ => some "sl")
        "привет".toList none = none ∧
      is_language_supported "sr" = false) := by decide

lemma removeURLsGo_congr :
    ∀ (f₁ f₂ : Nat) (l : List Char), l.length ≤ f₁ → l.length ≤ f₂ →
      removeURLsGo f₁ l = removeURLsGo f₂ l := by
  intro f₁
  induction f₁ with
  | zero =>
    intro f₂ l h₁ _
    have : l = [] := List.eq_nil_of_length_eq_zero (Nat.le_zero.mp h₁)
    subst this
    cases f₂ <;> rfl
  | succ f ih =>
    intro f₂ l h₁ h₂
    cases l with
    | nil => cases f₂ <;> rfl
    | cons c cs =>
      cases f₂ with
      | zero => simp at h₂
      | succ g =>
        simp only [removeURLsGo]
        by_cases k : urlMatchLen (c :: cs) = 0
        · rw [if_pos k, if_pos k]
          have hcs : cs.length ≤ f := by simpa using Nat.lt_succ_iff.mp h₁
          have hcs' : cs.length ≤ g := by simpa using Nat.lt_succ_iff.mp h₂
          rw [ih g cs hcs hcs']
        · rw [if_neg k, if_neg k]
          have hk : 1 ≤ urlMatchLen (c :: cs) := Nat.one_le_iff_ne_zero.mpr k
          have hlen : ((c :: cs).drop (urlMatchLen (c :: cs))).length ≤ f := by
            rw [List.length_drop]
            simp only [List.length_cons] at h₁ ⊢
            omega
          have hlen' : ((c :: cs).drop (urlMatchLen (c :: cs))).length ≤ g := by
            rw [List.length_drop]
            simp only [List.length_cons] at h₂ ⊢
            omega
          exact ih g _ hlen hlen'

lemma removeURLs_nil : removeURLs [] = [] := rfl

lemma removeURLs_cons_nomatch {c : Char} {cs : List Char}
    (h : urlMatchLen (c :: cs) = 0) :
    removeURLs (c :: cs) = c :: removeURLs cs := by
  unfold removeURLs
  simp only [List.length_cons, removeURLsGo]
  rw [if_pos h]

lemma removeURLs_cons_match {c : Char} {cs : List Char}
    (h : urlMatchLen (c :: cs) ≠ 0) :
    removeURLs (c :: cs) =
      removeURLs ((c :: cs).drop (urlMatchLen (c :: cs))) := by
  unfold removeURLs
  simp only [List.length_cons, removeURLsGo]
  rw [if_neg h]
  have hk : 1 ≤ urlMatchLen (c :: cs) := Nat.one_le_iff_ne_zero.mpr h
  apply removeURLsGo_congr
  · rw [List.length_drop]; simp only [List.length_cons]; omega
  · exact le_rfl

lemma urlMatchLen_nil : urlMatchLen [] = 0 := by decide

lemma nonspaceRunLen_ne_zero_iff (l : List Char) :
    nonspaceRunLen l ≠ 0 ↔ ∃ d t, l = d :: t ∧ pyIsSpace d = false := by
  cases l with
  | nil => simp [nonspaceRunLen]
  | cons d t =>
    by_cases hd : pyIsSpace d
    · simp [nonspaceRunLen, List.takeWhile_cons, hd]
    · simp [nonspaceRunLen, List.takeWhile_cons, hd]

lemma urlMatchLen_ne_zero_iff (l : List Char) :
    urlMatchLen l ≠ 0 ↔
      ((∃ d t, l = httpsPat ++ d :: t ∧ pyIsSpace d = false) ∨
       (∃ d t, l = httpPat ++ d :: t ∧ pyIsSpace d = false) ∨
       (∃ d t, l = wwwPat ++ d :: t ∧ pyIsSpace d = false)) := by
  constructor
  · intro h
    unfold urlMatchLen at h
    split_ifs at h with g1 r1 g2 r2 g3 r3
    · exact absurd rfl h
    · refine Or.inl ?_
      obtain ⟨d, t, hdt, hd⟩ := (nonspaceRunLen_ne_zero_iff _).mp r1
      exact ⟨d, t, by rw [← List.take_append_drop 8 l, g1, hdt], hd⟩
    · exact absurd rfl h
    · refine Or.inr (Or.inl ?_)
      obtain ⟨d, t, hdt, hd⟩ := (nonspaceRunLen_ne_zero_iff _).mp r2
      exact ⟨d, t, by rw [← List.take_append_drop 7 l, g2, hdt], hd⟩
    · exact absurd rfl h
    · refine Or.inr (Or.inr ?_)
      obtain ⟨d, t, hdt, hd⟩ := (nonspaceRunLen_ne_zero_iff _).mp r3
      exact ⟨d, t, by rw [← List.take_append_drop 4 l, g3, hdt], hd⟩
    · exact absurd rfl h
  · intro h
    rcases h with ⟨d, t, rfl, hd⟩ | ⟨d, t, rfl, hd⟩ | ⟨d, t, rfl, hd⟩
    · have g1 : (httpsPat ++ d :: t).take 8 = httpsPat :=
        List.take_left' (by decide)
      have hdrop : (httpsPat ++ d :: t).drop 8 = d :: t :=
        List.drop_left' (by decide)
      have r1 : nonspaceRunLen ((httpsPat ++ d :: t).drop 8) ≠ 0 := by
        rw [hdrop]
        exact (nonspaceRunLen_ne_zero_iff _).mpr ⟨d, t, rfl, hd⟩
      unfold urlMatchLen
      rw [if_pos g1, if_neg r1]
      omega
    · have g1 : ¬((httpPat ++ d :: t).take 8 = httpsPat) := by
        intro hq
        have h8 : (httpPat ++ d :: t).take 8 = httpPat ++ [d] := by
          rw [List.take_append_eq_append_take]
          norm_num [httpPat]
        rw [h8] at hq
        have := congrArg (List.take 5) hq
        rw [List.take_append_of_le_length (by decide)] at this
        exact absurd this (by decide)
      have g2 : (httpPat ++ d :: t).take 7 = httpPat :=
        List.take_left' (by decide)
      have hdrop : (httpPat ++ d :: t).drop 7 = d :: t :=
        List.drop_left' (by decide)
      have r2 : nonspaceRunLen ((httpPat ++ d :: t).drop 7) ≠ 0 := by
        rw [hdrop]
        exact (nonspaceRunLen_ne_zero_iff _).mpr ⟨d, t, rfl, hd⟩
      unfold urlMatchLen
      rw [if_neg g1, if_pos g2, if_neg r2]
      omega
    · have g1 : ¬((wwwPat ++ d :: t).take 8 = httpsPat) := by
        intro hq
        have := congrArg (List.take 1) hq
        rw [List.take_take, List.take_append_of_le_length (by decide)] at this
        exact absurd this (by decide)
      have g2 : ¬((wwwPat ++ d :: t).take 7 = httpPat) := by
        intro hq
        have := congrArg (List.take 1) hq
        rw [List.take_take, List.take_append_of_le_length (by decide)] at this
        exact absurd this (by decide)
      have g3 : (wwwPat ++ d :: t).take 4 = wwwPat :=
        List.take_left' (by decide)
      have hdrop : (wwwPat ++ d :: t).drop 4 = d :: t :=
        List.drop_left' (by decide)
      have r3 : nonspaceRunLen ((wwwPat ++ d :: t).drop 4) ≠ 0 := by
        rw [hdrop]
        exact (nonspaceRunLen_ne_zero_iff _).mpr ⟨d, t, rfl, hd⟩
      unfold urlMatchLen
      rw [if_neg g1, if_neg g2, if_pos g3, if_neg r3]
      omega

lemma httpsPat_nonspace : ∀ x ∈ httpsPat, pyIsSpace x = false := by decide

lemma httpPat_nonspace : ∀ x ∈ httpPat, pyIsSpace x = false := by decide

lemma wwwPat_nonspace : ∀ x ∈ wwwPat, pyIsSpace x = false := by decide

/-- A URL match of `v ++ y` cannot straddle the boundary when `y` is empty
or starts with whitespace: every matched scheme lies wholly inside `v`. -/
lemma scheme_confined {pat v y : List Char} {d : Char} {t : List Char}
    (hpat : ∀ x ∈ pat, pyIsSpace x = false)
    (hd : pyIsSpace d = false)
    (hy : headSpaceOrNil y)
    (heq : v ++ y = pat ++ d :: t) :
    ∃ t', v = pat ++ d :: t' := by
  have heq' : v ++ y = (pat ++ [d]) ++ t := by
    rw [heq]; simp
  by_cases hlen : (pat ++ [d]).length ≤ v.length
  · have hv : v.take (pat ++ [d]).length = pat ++ [d] := by
      have h1 : (v ++ y).take (pat ++ [d]).length = v.take (pat ++ [d]).length :=
        List.take_append_of_le_length hlen
      rw [heq'] at h1
      rw [← h1, List.take_left]
    refine ⟨v.drop (pat ++ [d]).length, ?_⟩
    rw [← List.take_append_drop (pat ++ [d]).length v, hv]
    simp
  · push_neg at hlen
    have hv : v = (pat ++ [d]).take v.length := by
      have h1 : (v ++ y).take v.length = v := by
        rw [List.take_append_of_le_length le_rfl, List.take_length]
      rw [heq'] at h1
      rw [← List.take_append_of_le_length (Nat.le_of_lt hlen), h1]
    have hsplit : (pat ++ [d]).take v.length ++ (pat ++ [d]).drop v.length =
        pat ++ [d] := List.take_append_drop _ _
    have hy' : y = (pat ++ [d]).drop v.length ++ t := by
      have h2 : v ++ y = v ++ ((pat ++ [d]).drop v.length ++ t) := by
        rw [heq', ← hsplit, ← hv]
        simp
      exact (List.append_cancel_left h2)
    have hne : (pat ++ [d]).drop v.length ≠ [] := by
      intro hq
      have := congrArg List.length hq
      rw [List.length_drop] at this
      simp only [List.length_nil] at this
      omega
    rcases hdr : (pat ++ [d]).drop v.length with _ | ⟨s, ss⟩
    · exact absurd hdr hne
    · have hsmem : s ∈ pat ++ [d] := by
        have : s ∈ (pat ++ [d]).drop v.length := by rw [hdr]; exact List.mem_cons_self s ss
        exact List.drop_subset _ _ this
      have hsns : pyIsSpace s = false := by
        rcases List.mem_append.mp hsmem with hin | hin
        · exact hpat s hin
        · rw [List.mem_singleton.mp hin]; exact hd
      rw [hdr] at hy'
      rcases hy with rfl | ⟨s', ys', hy2, hs'⟩
      · simp at hy'
      · rw [hy2] at hy'
        have : s' = s := by
          have := congrArg List.head? hy'
          simpa using this
        rw [← this] at hsns
        rw [hs'] at hsns
        exact absurd hsns (by simp)

/-- If `v ++ y` has a URL match at its head and `y` is empty or starts
with whitespace, then `v` itself has a match at its head. -/
lemma urlMatchLen_ne_zero_confine {v y : List Char}
    (hy : headSpaceOrNil y) (h : urlMatchLen (v ++ y) ≠ 0) :
    urlMatchLen v ≠ 0 := by
  rw [urlMatchLen_ne_zero_iff] at h ⊢
  rcases h with ⟨d, t, heq, hd⟩ | ⟨d, t, heq, hd⟩ | ⟨d, t, heq, hd⟩
  · obtain ⟨t', ht'⟩ := scheme_confined httpsPat_nonspace hd hy heq
    exact Or.inl ⟨d, t', ht', hd⟩
  · obtain ⟨t', ht'⟩ := scheme_confined httpPat_nonspace hd hy heq
    exact Or.inr (Or.inl ⟨d, t', ht', hd⟩)
  · obtain ⟨t', ht'⟩ := scheme_confined wwwPat_nonspace hd hy heq
    exact Or.inr (Or.inr ⟨d, t', ht', hd⟩)

/-- A head match survives extension on the right. -/
lemma urlMatchLen_append_ne_zero {v : List Char} (w : List Char)
    (h : urlMatchLen v ≠ 0) : urlMatchLen (v ++ w) ≠ 0 := by
  rw [urlMatchLen_ne_zero_iff] at h ⊢
  rcases h with ⟨d, t, rfl, hd⟩ | ⟨d, t, rfl, hd⟩ | ⟨d, t, rfl, hd⟩
  · exact Or.inl ⟨d, t ++ w, by simp, hd⟩
  · exact Or.inr (Or.inl ⟨d, t ++ w, by simp, hd⟩)
  · exact Or.inr (Or.inr ⟨d, t ++ w, by simp, hd⟩)

/-- No URL match starts at a whitespace character. -/
lemma urlMatchLen_cons_space {c : Char} {cs : List Char}
    (h : pyIsSpace c = true) : urlMatchLen (c :: cs) = 0 := by
  by_contra hne
  have hns : pyIsSpace c = false := by
    rcases (urlMatchLen_ne_zero_iff _).mp hne with ⟨d, t, heq, _⟩ | ⟨d, t, heq, _⟩ | ⟨d, t, heq, _⟩
    · have hc : c = 'h' := by
        have := congrArg List.head? heq
        simpa [httpsPat] using this
      rw [hc]; decide
    · have hc : c = 'h' := by
        have := congrArg List.head? heq
        simpa [httpPat] using this
      rw [hc]; decide
    · have hc : c = 'w' := by
        have := congrArg List.head? heq
        simpa [wwwPat] using this
      rw [hc]; decide
  rw [h] at hns
  exact absurd hns (by simp)

lemma drop_length_takeWhile (q : Char → Bool) (l : List Char) :
    l.drop (l.takeWhile q).length = l.dropWhile q := by
  induction l with
  | nil => rfl
  | cons c cs ih =>
    by_cases hc : q c
    · simp [List.takeWhile_cons, List.dropWhile_cons, hc, ih]
    · simp [List.takeWhile_cons, List.dropWhile_cons, hc]

lemma headSpaceOrNil_dropWhile (x : List Char) :
    headSpaceOrNil (x.dropWhile fun c => !pyIsSpace c) := by
  rcases hdr : x.dropWhile (fun c => !pyIsSpace c) with _ | ⟨s, ys⟩
  · exact Or.inl rfl
  · refine Or.inr ⟨s, ys, rfl, ?_⟩
    have hq : (fun c => !pyIsSpace c) s = false := by
      have hne : x.dropWhile (fun c => !pyIsSpace c) ≠ [] := by simp [hdr]
      have := List.head_dropWhile_not (fun c => !pyIsSpace c) x hne
      have hh : (x.dropWhile fun c => !pyIsSpace c).head hne = s := by
        simp [hdr]
      rw [hh] at this
      simpa using this
    simpa using hq

/-- After removing a head match, the rest is empty or starts with
whitespace (the greedy `\S+` consumed the whole non-space run). -/
lemma urlMatchLen_drop_headSpace {l : List Char}
    (h : urlMatchLen l ≠ 0) : headSpaceOrNil (l.drop (urlMatchLen l)) := by
  unfold urlMatchLen at h ⊢
  split_ifs at h ⊢ with g1 r1 g2 r2 g3 r3
  any_goals exact absurd rfl h
  · rw [← List.drop_drop, nonspaceRunLen, drop_length_takeWhile]
    exact headSpaceOrNil_dropWhile _
  · rw [← List.drop_drop, nonspaceRunLen, drop_length_takeWhile]
    exact headSpaceOrNil_dropWhile _
  · rw [← List.drop_drop, nonspaceRunLen, drop_length_takeWhile]
    exact headSpaceOrNil_dropWhile _

lemma removeURLs_headSpace {x : List Char} (h : headSpaceOrNil x) :
    headSpaceOrNil (removeURLs x) := by
  rcases h with rfl | ⟨s, xs, rfl, hs⟩
  · exact Or.inl rfl
  · rw [removeURLs_cons_nomatch (urlMatchLen_cons_space hs)]
    exact Or.inr ⟨s, removeURLs xs, rfl, hs⟩

/-- The output `removeURLs l` is a match-free prefix of `l` followed by a tail that is
empty or starts with whitespace. -/
lemma removeURLs_decomp (l : List Char) :
    ∃ p y, removeURLs l = p ++ y ∧ (∃ t, p ++ t = l) ∧ headSpaceOrNil y := by
  induction l with
  | nil => exact ⟨[], [], rfl, ⟨[], rfl⟩, Or.inl rfl⟩
  | cons c cs ih =>
    by_cases k : urlMatchLen (c :: cs) = 0
    · obtain ⟨p, y, hry, ⟨t, hp⟩, hhead⟩ := ih
      refine ⟨c :: p, y, ?_, ⟨t, ?_⟩, hhead⟩
      · rw [removeURLs_cons_nomatch k, hry]; rfl
      · rw [List.cons_append, hp]
    · refine ⟨[], removeURLs ((c :: cs).drop (urlMatchLen (c :: cs))), ?_, ⟨c :: cs, rfl⟩, ?_⟩
      · rw [removeURLs_cons_match k]; rfl
      · exact removeURLs_headSpace (urlMatchLen_drop_headSpace k)

/-- If `c :: cs` has no match at its head, neither does `c` followed by
the URL-removed `cs`. -/
lemma urlMatchLen_cons_removeURLs {c : Char} {cs : List Char}
    (h : urlMatchLen (c :: cs) = 0) :
    urlMatchLen (c :: removeURLs cs) = 0 := by
  by_contra hne
  obtain ⟨p, y, hry, ⟨t, hp⟩, hhead⟩ := removeURLs_decomp cs
  have hne' : urlMatchLen ((c :: p) ++ y) ≠ 0 := by
    rw [List.cons_append, ← hry]; exact hne
  have h1 : urlMatchLen (c :: p) ≠ 0 := urlMatchLen_ne_zero_confine hhead hne'
  have h2 : urlMatchLen ((c :: p) ++ t) ≠ 0 := urlMatchLen_append_ne_zero t h1
  rw [List.cons_append, hp] at h2
  exact h2 h

/-- The output of `removeURLs` contains no URL match at any position. -/
lemma noURLAt_removeURLs (l : List Char) : noURLAt (removeURLs l) := by
  suffices H : ∀ n (l : List Char), l.length ≤ n → noURLAt (removeURLs l) from
    H l.length l le_rfl
  intro n
  induction n with
  | zero =>
    intro l hl
    have : l = [] := List.eq_nil_of_length_eq_zero (Nat.le_zero.mp hl)
    subst this
    intro i
    simp [removeURLs_nil, urlMatchLen_nil]
  | succ n ih =>
    intro l hl
    cases l with
    | nil =>
      intro i
      simp [removeURLs_nil, urlMatchLen_nil]
    | cons c cs =>
      by_cases k : urlMatchLen (c :: cs) = 0
      · rw [removeURLs_cons_nomatch k]
        intro i
        cases i with
        | zero => simpa using urlMatchLen_cons_removeURLs k
        | succ j =>
          have hcs : noURLAt (removeURLs cs) := ih cs (by simpa using Nat.lt_succ_iff.mp hl)
          simpa using hcs j
      · rw [removeURLs_cons_match k]
        have hk : 1 ≤ urlMatchLen (c :: cs) := Nat.one_le_iff_ne_zero.mpr k
        refine ih _ ?_
        rw [List.length_drop]
        simp only [List.length_cons] at hl ⊢
        omega

/-- The pass `removeURLs` fixes every match-free list. -/
lemma removeURLs_eq_self {l : List Char} (h : noURLAt l) : removeURLs l = l := by
  induction l with
  | nil => rfl
  | cons c cs ih =>
    have h0 : urlMatchLen (c :: cs) = 0 := by simpa using h 0
    rw [removeURLs_cons_nomatch h0]
    have hcs : noURLAt cs := fun i => by simpa using h (i + 1)
    rw [ih hcs]

lemma mem_removeURLs {c : Char} {l : List Char} (h : c ∈ removeURLs l) : c ∈ l := by
  suffices H : ∀ n (l : List Char), l.length ≤ n → ∀ c, c ∈ removeURLs l → c ∈ l from
    H l.length l le_rfl c h
  intro n
  induction n with
  | zero =>
    intro l hl c hc
    have : l = [] := List.eq_nil_of_length_eq_zero (Nat.le_zero.mp hl)
    subst this
    simp [removeURLs_nil] at hc
  | succ n ih =>
    intro l hl c hc
    cases l with
    | nil => simp [removeURLs_nil] at hc
    | cons d ds =>
      by_cases k : urlMatchLen (d :: ds) = 0
      · rw [removeURLs_cons_nomatch k] at hc
        rcases List.mem_cons.mp hc with rfl | hc'
        · exact List.mem_cons_self _ _
        · exact List.mem_cons_of_mem _
            (ih ds (by simpa using Nat.lt_succ_iff.mp hl) c hc')
      · rw [removeURLs_cons_match k] at hc
        have hk : 1 ≤ urlMatchLen (d :: ds) := Nat.one_le_iff_ne_zero.mpr k
        have hmem := ih ((d :: ds).drop (urlMatchLen (d :: ds)))
          (by rw [List.length_drop]; simp only [List.length_cons] at hl ⊢; omega) c hc
        exact List.drop_subset _ _ hmem

lemma noAdjWs_of_cons {a : Char} {x : List Char} (h : noAdjWs (a :: x)) :
    noAdjWs x := by
  cases x with
  | nil => trivial
  | cons b y => exact h.2

lemma noAdjWs_pair {a b : Char} {x : List Char} (h : noAdjWs (a :: b :: x)) :
    ¬(pyIsSpace a = true ∧ pyIsSpace b = true) := h.1

lemma mem_collapseGo {c : Char} :
    ∀ {f : Bool} {l : List Char}, c ∈ collapseGo f l → c ∈ l ∨ c = ' ' := by
  intro f l
  induction l generalizing f with
  | nil => intro h; simp [collapseGo] at h
  | cons d ds ih =>
    intro h
    by_cases hd : pyIsSpace d
    · simp only [collapseGo, if_pos hd] at h
      by_cases hf : f
      · rw [if_pos hf] at h
        rcases ih h with h' | h'
        · exact Or.inl (List.mem_cons_of_mem _ h')
        · exact Or.inr h'
      · rw [if_neg hf] at h
        rcases List.mem_cons.mp h with rfl | h'
        · exact Or.inr rfl
        · rcases ih h' with h'' | h''
          · exact Or.inl (List.mem_cons_of_mem _ h'')
          · exact Or.inr h''
    · simp only [collapseGo, if_neg hd] at h
      rcases List.mem_cons.mp h with rfl | h'
      · exact Or.inl (List.mem_cons_self _ _)
      · rcases ih h' with h'' | h''
        · exact Or.inl (List.mem_cons_of_mem _ h'')
        · exact Or.inr h''

/-- The pass `collapseGo false` keeps the leading non-space run and continues with
a tail that is empty or starts with a space. -/
lemma collapseGo_false_decomp (x : List Char) :
    ∃ y, collapseGo false x = (x.takeWhile fun c => !pyIsSpace c) ++ y ∧
      headSpaceOrNil y := by
  induction x with
  | nil => exact ⟨[], rfl, Or.inl rfl⟩
  | cons c cs ih =>
    by_cases hc : pyIsSpace c
    · refine ⟨' ' :: collapseGo true cs, ?_, Or.inr ⟨' ', _, rfl, by decide⟩⟩
      have ht : ((c :: cs).takeWhile fun c => !pyIsSpace c) = [] := by
        simp [List.takeWhile_cons, hc]
      rw [ht, List.nil_append]
      simp [collapseGo, hc]
    · obtain ⟨y, hy, hh⟩ := ih
      refine ⟨y, ?_, hh⟩
      have ht : ((c :: cs).takeWhile fun c => !pyIsSpace c) =
          c :: (cs.takeWhile fun c => !pyIsSpace c) := by
        simp [List.takeWhile_cons, hc]
      rw [ht]
      simp only [collapseGo, if_neg hc, hy]
      rfl

lemma noURLAt_collapseGo {l : List Char} (h : noURLAt l) :
    ∀ f, noURLAt (collapseGo f l) := by
  induction l with
  | nil =>
    intro f i
    simp [collapseGo, urlMatchLen_nil]
  | cons c cs ih =>
    have hcs : noURLAt cs := fun i => by simpa using h (i + 1)
    intro f
    by_cases hc : pyIsSpace c
    · cases f with
      | true =>
        simp only [collapseGo, if_pos hc, if_pos rfl]
        exact ih hcs true
      | false =>
        simp only [collapseGo, if_pos hc]
        rw [if_neg (by simp)]
        intro i
        cases i with
        | zero => simpa using urlMatchLen_cons_space (by decide : pyIsSpace ' ' = true)
        | succ j => simpa using ih hcs true j
    · simp only [collapseGo, if_neg hc]
      intro i
      cases i with
      | zero =>
        simp only [List.drop_zero]
        by_contra hne
        obtain ⟨y, hy, hh⟩ := collapseGo_false_decomp cs
        rw [hy] at hne
        have hne' : urlMatchLen ((c :: (cs.takeWhile fun c => !pyIsSpace c)) ++ y) ≠ 0 := by
          rw [List.cons_append]; exact hne
        have h1 := urlMatchLen_ne_zero_confine hh hne'
        have h2 := urlMatchLen_append_ne_zero (cs.dropWhile fun c => !pyIsSpace c) h1
        rw [List.cons_append, List.takeWhile_append_dropWhile] at h2
        exact h2 (by simpa using h 0)
      | succ j => simpa using ih hcs false j

lemma collapseGo_true_headNS (l : List Char) : headNS (collapseGo true l) := by
  induction l with
  | nil => intro s ys h; simp [collapseGo] at h
  | cons c cs ih =>
    by_cases hc : pyIsSpace c
    · simpa only [collapseGo, if_pos hc, if_pos rfl] using ih
    · intro s ys h
      simp only [collapseGo, if_neg hc] at h
      injection h with h1 _
      rw [← h1]
      simpa using hc

lemma collapseGo_noAdj (l : List Char) : ∀ f, noAdjWs (collapseGo f l) := by
  induction l with
  | nil => intro f; simp only [collapseGo]; trivial
  | cons c cs ih =>
    intro f
    by_cases hc : pyIsSpace c
    · cases f with
      | true => simpa only [collapseGo, if_pos hc, if_pos rfl] using ih true
      | false =>
        simp only [collapseGo, if_pos hc]
        rw [if_neg (by simp)]
        rcases hdr : collapseGo true cs with _ | ⟨b, bs⟩
        · trivial
        · refine ⟨?_, by rw [← hdr]; exact ih true⟩
          rintro ⟨_, hb⟩
          have := collapseGo_true_headNS cs b bs hdr
          rw [hb] at this
          simp at this
    · simp only [collapseGo, if_neg hc]
      rcases hdr : collapseGo false cs with _ | ⟨b, bs⟩
      · trivial
      · refine ⟨?_, by rw [← hdr]; exact ih false⟩
        rintro ⟨ha, _⟩
        rw [ha] at hc
        simp at hc

lemma collapseGo_wsSingle (l : List Char) :
    ∀ f, wsOnlySingle (collapseGo f l) := by
  induction l with
  | nil => intro f c hc _; simp [collapseGo] at hc
  | cons d ds ih =>
    intro f c hc hsp
    by_cases hd : pyIsSpace d
    · simp only [collapseGo, if_pos hd] at hc
      by_cases hf : f
      · rw [if_pos hf] at hc; exact ih true c hc hsp
      · rw [if_neg hf] at hc
        rcases List.mem_cons.mp hc with rfl | hc'
        · rfl
        · exact ih true c hc' hsp
    · simp only [collapseGo, if_neg hd] at hc
      rcases List.mem_cons.mp hc with rfl | hc'
      · rw [hsp] at hd; exact absurd rfl hd
      · exact ih false c hc' hsp

/-- On a list whose whitespace is single plain spaces with no two
adjacent, `collapseGo false` is the identity (and `collapseGo true` too
when the head is not a space). -/
lemma collapseGo_eq_self {l : List Char} (h1 : noAdjWs l) (h2 : wsOnlySingle l) :
    collapseGo false l = l ∧ (headNS l → collapseGo true l = l) := by
  induction l with
  | nil => exact ⟨rfl, fun _ => rfl⟩
  | cons c cs ih =>
    have hcs1 : noAdjWs cs := noAdjWs_of_cons h1
    have hcs2 : wsOnlySingle cs := fun x hx => h2 x (List.mem_cons_of_mem _ hx)
    obtain ⟨ihf, iht⟩ := ih hcs1 hcs2
    by_cases hc : pyIsSpace c
    · have hc' : c = ' ' := h2 c (List.mem_cons_self _ _) hc
      have hhead : headNS cs := by
        intro s ys heq
        subst heq
        by_cases hs : pyIsSpace s
        · exact absurd ⟨hc, hs⟩ (noAdjWs_pair h1)
        · simpa using hs
      constructor
      · simp only [collapseGo, if_pos hc]
        rw [if_neg (by simp), iht hhead, hc']
      · intro hh
        exact absurd (hh c cs rfl) (by simp [hc])
    · constructor
      · simp only [collapseGo, if_neg hc]
        rw [ihf]
      · intro _
        simp only [collapseGo, if_neg hc]
        rw [ihf]

lemma dropWhile_eq_self_of_headNS {l : List Char} (h : headNS l) :
    l.dropWhile pyIsSpace = l := by
  cases l with
  | nil => rfl
  | cons c cs =>
    rw [List.dropWhile_cons, if_neg (by simp [h c cs rfl])]

lemma pyStrip_eq_self {l : List Char} (h1 : headNS l) (h2 : lastNS l) :
    pyStrip l = l := by
  unfold pyStrip
  rw [dropWhile_eq_self_of_headNS h1, dropWhile_eq_self_of_headNS h2,
    List.reverse_reverse]

lemma headNS_dropWhile (z : List Char) : headNS (z.dropWhile pyIsSpace) := by
  intro s ys heq
  have hne : z.dropWhile pyIsSpace ≠ [] := by simp [heq]
  have := List.head_dropWhile_not pyIsSpace z hne
  have hh : (z.dropWhile pyIsSpace).head hne = s := by simp [heq]
  rw [hh] at this
  simpa using this

lemma lastNS_pyStrip (z : List Char) : lastNS (pyStrip z) := by
  unfold pyStrip lastNS
  rw [List.reverse_reverse]
  exact headNS_dropWhile _

lemma headNS_pyStrip (z : List Char) : headNS (pyStrip z) := by
  intro s ys heq
  have hsfx : ((z.dropWhile pyIsSpace).reverse.dropWhile pyIsSpace) <:+
      (z.dropWhile pyIsSpace).reverse := List.dropWhile_suffix pyIsSpace
  obtain ⟨pre, hpre⟩ := hsfx
  have hu : (z.dropWhile pyIsSpace).reverse.dropWhile pyIsSpace =
      ys.reverse ++ [s] := by
    have := congrArg List.reverse heq
    simpa [pyStrip] using this
  rw [hu] at hpre
  have hw : z.dropWhile pyIsSpace = s :: (ys ++ pre.reverse) := by
    have := congrArg List.reverse hpre
    simpa using this.symm
  exact headNS_dropWhile z s _ hw

lemma noAdjWs_append_right {x y : List Char} (h : noAdjWs (x ++ y)) :
    noAdjWs y := by
  induction x with
  | nil => exact h
  | cons a x' ih => exact ih (noAdjWs_of_cons h)

lemma noAdjWs_append_left {x y : List Char} (h : noAdjWs (x ++ y)) :
    noAdjWs x := by
  induction x with
  | nil => trivial
  | cons a x' ih =>
    cases x' with
    | nil => trivial
    | cons b x'' =>
      exact ⟨noAdjWs_pair h, ih (noAdjWs_of_cons h)⟩

lemma pyStrip_middle (l : List Char) : ∃ a b, a ++ pyStrip l ++ b = l := by
  refine ⟨l.takeWhile pyIsSpace,
    ((l.dropWhile pyIsSpace).reverse.takeWhile pyIsSpace).reverse, ?_⟩
  have h2 : (l.dropWhile pyIsSpace).reverse =
      (l.dropWhile pyIsSpace).reverse.takeWhile pyIsSpace ++
        (l.dropWhile pyIsSpace).reverse.dropWhile pyIsSpace :=
    (List.takeWhile_append_dropWhile ..).symm
  have h3 := congrArg List.reverse h2
  rw [List.reverse_reverse, List.reverse_append] at h3
  show l.takeWhile pyIsSpace ++
      ((l.dropWhile pyIsSpace).reverse.dropWhile pyIsSpace).reverse ++
      ((l.dropWhile pyIsSpace).reverse.takeWhile pyIsSpace).reverse = l
  rw [List.append_assoc, ← h3, List.takeWhile_append_dropWhile]

lemma noURLAt_middle {a m b : List Char} (h : noURLAt (a ++ m ++ b)) :
    noURLAt m := by
  intro i
  by_cases him : m.length ≤ i
  · rw [List.drop_eq_nil_of_le him, urlMatchLen_nil]
  · push_neg at him
    have h2 := h (a.length + i)
    have heq : (a ++ m ++ b).drop (a.length + i) = m.drop i ++ b := by
      rw [List.append_assoc, ← List.drop_drop, List.drop_left,
        List.drop_append_eq_append_drop, Nat.sub_eq_zero_of_le (Nat.le_of_lt him),
        List.drop_zero]
    rw [heq] at h2
    by_contra hne
    exact urlMatchLen_append_ne_zero b hne h2

lemma noURLAt_pyStrip {l : List Char} (h : noURLAt l) : noURLAt (pyStrip l) := by
  obtain ⟨a, b, hab⟩ := pyStrip_middle l
  rw [← hab] at h
  exact noURLAt_middle h

lemma mem_pyStrip {c : Char} {l : List Char} (h : c ∈ pyStrip l) : c ∈ l := by
  obtain ⟨a, b, hab⟩ := pyStrip_middle l
  rw [← hab]
  simp [h]

lemma noAdjWs_pyStrip {l : List Char} (h : noAdjWs l) : noAdjWs (pyStrip l) := by
  obtain ⟨a, b, hab⟩ := pyStrip_middle l
  rw [← hab, List.append_assoc] at h
  exact noAdjWs_append_left (noAdjWs_append_right h)

lemma wsOnlySingle_pyStrip {l : List Char} (h : wsOnlySingle l) :
    wsOnlySingle (pyStrip l) := fun c hc => h c (mem_pyStrip hc)

/-- Collapsing and stripping stabilises after one round. -/
lemma strip_collapse_projection (x : List Char) :
    pyStrip (collapseWS (pyStrip (collapseWS x))) = pyStrip (collapseWS x) := by
  have hna : noAdjWs (pyStrip (collapseGo false x)) :=
    noAdjWs_pyStrip (collapseGo_noAdj x false)
  have hws : wsOnlySingle (pyStrip (collapseGo false x)) :=
    wsOnlySingle_pyStrip (collapseGo_wsSingle x false)
  have hC : collapseGo false (pyStrip (collapseGo false x)) =
      pyStrip (collapseGo false x) := (collapseGo_eq_self hna hws).1
  have hS : pyStrip (pyStrip (collapseGo false x)) = pyStrip (collapseGo false x) :=
    pyStrip_eq_self (headNS_pyStrip _) (lastNS_pyStrip _)
  unfold collapseWS
  rw [hC, hS]

lemma removeEmoji_eq_self {l : List Char} (h : ∀ c ∈ l, isEmojiChar c = false) :
    removeEmoji l = l :=
  List.filter_eq_self.mpr (fun a ha => by simp [h a ha])

/-- The cleaned text never contains an emoji-class character: the filter
removes them and the later stages introduce only plain spaces. -/
lemma isEmojiChar_of_mem_clean {c : Char} {t : List Char}
    (h : c ∈ clean_text_for_detection t) : isEmojiChar c = false := by
  unfold clean_text_for_detection at h
  have h1 := mem_pyStrip h
  rcases mem_collapseGo h1 with h2 | rfl
  · obtain ⟨-, hq⟩ := List.mem_filter.mp h2
    simpa using hq
  · decide

/-- C9 (amended): `_clean_text_for_detection` is idempotent on every text
containing no character of the emoji-removal class.  (On general text it
is not: removing an emoji can splice a URL together, see the
counterexample.) -/
theorem clean_text_idempotent_no_emoji (t : List Char)
    (h : ∀ c ∈ t, isEmojiChar c = false) :
    clean_text_for_detection (clean_text_for_detection t) =
      clean_text_for_detection t := by
  have hR : ∀ c ∈ removeURLs t, isEmojiChar c = false :=
    fun c hc => h c (mem_removeURLs hc)
  have hclean : clean_text_for_detection t =
      pyStrip (collapseWS (removeURLs t)) := by
    unfold clean_text_for_detection
    rw [removeEmoji_eq_self hR]
  have hno : noURLAt (clean_text_for_detection t) := by
    rw [hclean]
    exact noURLAt_pyStrip (noURLAt_collapseGo (noURLAt_removeURLs t) false)
  have hR2 : removeURLs (clean_text_for_detection t) =
      clean_text_for_detection t := removeURLs_eq_self hno
  have hE2 : removeEmoji (clean_text_for_detection t) =
      clean_text_for_detection t :=
    removeEmoji_eq_self (fun c hc => isEmojiChar_of_mem_clean hc)
  calc clean_text_for_detection (clean_text_for_detection t)
      = pyStrip (collapseWS (removeEmoji (removeURLs (clean_text_for_detection t)))) := rfl
    _ = pyStrip (collapseWS (clean_text_for_detection t)) := by rw [hR2, hE2]
    _ = pyStrip (collapseWS (pyStrip (collapseWS (removeURLs t)))) := by
        rw [← hclean]
    _ = pyStrip (collapseWS (removeURLs t)) := strip_collapse_projection _
    _ = clean_text_for_detection t := hclean.symm

theorem clean_text_idempotent_no_emoji_witness :
    (∀ c ∈ "hello   world https://a".toList, isEmojiChar c = false) ∧
    clean_text_for_detection
        (clean_text_for_detection "hello   world https://a".toList) =
      clean_text_for_detection "hello   world https://a".toList :=
  ⟨by decide, clean_text_idempotent_no_emoji "hello   world https://a".toList (by decide)⟩

/-- C9 (counterexample): the normalizer is not idempotent.  In
`"http😀s://x"` the URL pass finds no match, the emoji pass then splices
`"https://x"` together, and a second normalization deletes it. -/
theorem clean_text_not_idempotent :
    clean_text_for_detection (clean_text_for_detection "http😀s://x".toList) ≠
      clean_text_for_detection "http😀s://x".toList ∧
    clean_text_for_detection "http😀s://x".toList = "https://x".toList ∧
    clean_text_for_detection (clean_text_for_detection "http😀s://x".toList) = [] := by
  decide

end AITranslator
